import Mathlib

/-!
Verification development for the accorn crawl-and-transform pipeline.

The repository ships the design documents and user interface of a web
scraper that crawls a site from a root URL, extracts text, entities and
topics, and chunks the text for retrieval systems.  The crawler, chunker
and analyzer themselves are described by the specification and the
repository's README and plan documents; this file gives an executable
model of that pipeline and proves the specified properties about it.
-/

namespace Accorn

/-- Modelled from the spec: the scraper implementation (web_scraper.py) is
not in the repository snapshot; the spec scopes links by comparing the
hostname of a URL with the root URL's hostname, so a URL is modelled as a
hostname together with the rest (path) of the URL. -/
structure Url where
  host : String
  path : String
deriving DecidableEq, Repr

/-- Modelled from the spec: `Fetch(url, mode) -> (html string, finalUrl string,
err Error)`; for the crawl model a fetch either succeeds with extracted text
and outbound links, or fails with an error kind. -/
inductive FetchOutcome where
  | ok (text : String) (links : List Url)
  | fail (err : String)
deriving DecidableEq

/-- Modelled from the spec: a website is a map from URLs to fetch outcomes. -/
def Web : Type := Url → FetchOutcome

/-- Modelled from the spec: CrawlJob — root URL, max depth (default 5), max
pages (default 100), inter-request delay, output chunk size and overlap in
characters. -/
structure CrawlJob where
  root : Url
  max_depth : Nat := 5
  max_pages : Nat := 100
  delay : Nat := 1
  maxChars : Nat := 1000
  overlapChars : Nat := 200
deriving DecidableEq

/-- Modelled from the spec: FrontierEntry — (url, depth). -/
structure FrontierEntry where
  url : Url
  depth : Nat
deriving DecidableEq, Repr

/-- Modelled from the spec: fetch status of a page record (ok|skipped|failed). -/
inductive FetchStatus where
  | ok
  | skipped
  | failed
deriving DecidableEq, Repr

/-- Split a character stream into maximal non-whitespace runs; the second
argument accumulates the current word in reverse. -/
def wordsAux : List Char → List Char → List String
  | [], [] => []
  | [], acc => [String.mk acc.reverse]
  | c :: cs, acc =>
    if c.isWhitespace then
      if acc.isEmpty then wordsAux cs []
      else String.mk acc.reverse :: wordsAux cs []
    else wordsAux cs (c :: acc)

/-- The whitespace-separated words of a text. -/
def wordsOf (t : String) : List String := wordsAux t.data []

/-- Word count of a text: number of whitespace-separated non-empty runs. -/
def countWords (t : String) : Nat := (wordsOf t).length

/-- Modelled from the spec: PageRecord — url, depth, cleaned text, word count,
outbound links, fetch status; created once per successfully fetched URL. -/
structure PageRecord where
  url : Url
  depth : Nat
  text : String
  links : List Url
  word_count : Nat
  status : FetchStatus
deriving DecidableEq

/-- Modelled from the spec: a per-page failure entry (url, error kind) kept
for observability next to the successful pages. -/
structure PageFailure where
  url : Url
  depth : Nat
  error : String
deriving DecidableEq

/-- Modelled from the spec: URL content-type heuristic — non-text URLs
(pdf, images, video, archives) are discarded without fetching. -/
def isNonText (u : Url) : Bool :=
  [".pdf", ".png", ".jpg", ".jpeg", ".gif", ".mp4", ".zip"].any
    fun ext => ext.data.isSuffixOf u.path.data

/-- Crawl state: frontier queue, visited set, accumulated page records and
failures, the order in which pages were actually fetched, and the
pages-scraped counter. -/
structure CrawlState where
  frontier : List FrontierEntry
  visited : List Url
  pages : List PageRecord
  failures : List PageFailure
  order : List FrontierEntry
  pages_scraped : Nat
deriving DecidableEq

/-- Initial crawl state: the frontier holds the root at depth 0. -/
def initState (job : CrawlJob) : CrawlState :=
  { frontier := [⟨job.root, 0⟩], visited := [], pages := [], failures := [],
    order := [], pages_scraped := 0 }

/-- Modelled from the spec: on success, enqueue same-domain outbound links
that are not yet visited and not already queued — the filter keeps links
whose hostname matches the root's hostname exactly, that are not in the
(updated) visited set and not in the remaining frontier; duplicates among
the discovered links are dropped. -/
def freshLinks (job : CrawlJob) (visitedNew : List Url)
    (rest : List FrontierEntry) (links : List Url) : List Url :=
  (links.filter fun l =>
    decide (l.host = job.root.host ∧ l ∉ visitedNew ∧
      ∀ e' ∈ rest, e'.url ≠ l)).dedup

/-- The page record created for a successfully fetched frontier entry. -/
def mkRecord (e : FrontierEntry) (text : String) (links : List Url) :
    PageRecord :=
  { url := e.url, depth := e.depth, text := text, links := links,
    word_count := countWords text, status := .ok }

/-- Modelled from the spec: one iteration of the running loop.  Returns
`none` when the loop terminates (frontier exhausted or page limit hit);
otherwise dequeues the head entry and either discards it (depth over the
limit, already visited, or non-text URL) or fetches it.  A successful fetch
records the page, marks it visited and enqueues the unvisited, not already
queued same-hostname links at depth+1; a failed fetch records the failure
and continues. -/
def step (job : CrawlJob) (web : Web) (s : CrawlState) : Option CrawlState :=
  match s.frontier with
  | [] => none
  | e :: rest =>
    if job.max_pages ≤ s.pages_scraped then none
    else if job.max_depth < e.depth then some { s with frontier := rest }
    else if e.url ∈ s.visited then some { s with frontier := rest }
    else if isNonText e.url then some { s with frontier := rest }
    else
      match web e.url with
      | .ok text links =>
        some { frontier := rest ++
                 (freshLinks job (e.url :: s.visited) rest links).map
                   fun l => ⟨l, e.depth + 1⟩,
               visited := e.url :: s.visited,
               pages := s.pages ++ [mkRecord e text links],
               failures := s.failures,
               order := s.order ++ [e],
               pages_scraped := s.pages_scraped + 1 }
      | .fail err =>
        some { frontier := rest,
               visited := e.url :: s.visited,
               pages := s.pages,
               failures := s.failures ++ [⟨e.url, e.depth, err⟩],
               order := s.order ++ [e],
               pages_scraped := s.pages_scraped }

/-- Run the crawl loop for at most `fuel` iterations. -/
def crawlLoop (job : CrawlJob) (web : Web) : Nat → CrawlState → CrawlState
  | 0, s => s
  | fuel + 1, s =>
    match step job web s with
    | none => s
    | some s' => crawlLoop job web fuel s'

/-- The state of the crawl of `job` over `web` after at most `fuel` loop
iterations; for large enough fuel this is the final state. -/
def crawl (job : CrawlJob) (web : Web) (fuel : Nat) : CrawlState :=
  crawlLoop job web fuel (initState job)

/-- The frontier depth list never ranges more than one above its head:
every queued depth is at most (first queued depth) + 1. -/
def spanOK : List Nat → Prop
  | [] => True
  | d :: rest => ∀ x ∈ d :: rest, x ≤ d + 1

/-- The crawl-loop invariant: page and depth limits are respected, all
fetched pages are same-hostname, records mirror the web's outcomes, every
discovered URL stems from the root or from a successfully fetched page, and
the fetch order is breadth-first. -/
structure Inv (job : CrawlJob) (web : Web) (s : CrawlState) : Prop where
  scraped_le : s.pages_scraped ≤ job.max_pages
  order_depth : ∀ e ∈ s.order, e.depth ≤ job.max_depth
  order_host : ∀ e ∈ s.order, e.url.host = job.root.host
  pages_ok : ∀ p ∈ s.pages, p.depth ≤ job.max_depth ∧
    p.url.host = job.root.host ∧ p.status = FetchStatus.ok ∧
    p.word_count = countWords p.text ∧ web p.url = .ok p.text p.links
  failures_ok : ∀ f ∈ s.failures, f.depth ≤ job.max_depth ∧
    f.url.host = job.root.host ∧ web f.url = .fail f.error
  frontier_host : ∀ e ∈ s.frontier, e.url.host = job.root.host
  frontier_src : ∀ e ∈ s.frontier,
    e.url = job.root ∨ ∃ p ∈ s.pages, e.url ∈ p.links
  visited_src : ∀ u ∈ s.visited, u = job.root ∨ ∃ p ∈ s.pages, u ∈ p.links
  order_rec : ∀ e ∈ s.order,
    (∃ p ∈ s.pages, p.url = e.url ∧ p.depth = e.depth) ∨
    ∃ f ∈ s.failures, f.url = e.url ∧ f.depth = e.depth
  bfs : List.Sorted (· ≤ ·)
    (s.order.map FrontierEntry.depth ++ s.frontier.map FrontierEntry.depth)
  span : spanOK (s.frontier.map FrontierEntry.depth)

/-! ### A small concrete website used to witness the crawl theorems -/

/-- Root URL of the example site. -/
def urlA : Url := ⟨"a", ""⟩

/-- A same-host URL whose fetch times out. -/
def urlQ : Url := ⟨"a", "/q"⟩

/-- A same-host URL with an empty page. -/
def urlP : Url := ⟨"a", "/p"⟩

/-- An external URL (different hostname). -/
def urlX : Url := ⟨"b", "/x"⟩

/-- Example website: the root links to a failing page, an empty page and an
external page. -/
def webEx : Web := fun u =>
  if u = urlA then .ok "Hi there. Bye." [urlQ, urlP, urlX]
  else if u = urlP then .ok "" []
  else .fail "timeout"

/-- Example crawl job over the example website. -/
def jobEx : CrawlJob :=
  { root := urlA, max_depth := 2, max_pages := 10, delay := 1,
    maxChars := 20, overlapChars := 5 }

/-! ### Chunker -/

/-- Total character length of a list of sentences. -/
def csum (l : List String) : Nat := (l.map String.length).sum

/-- Concatenation of a chunk's sentences into the chunk's content text. -/
def joinStr : List String → String
  | [] => ""
  | s :: rest => s ++ joinStr rest

/-- Helper for `overlapTail`: walk the reversed chunk, keeping trailing
sentences while they still fit in the overlap budget. -/
def overlapTailAux (overlap : Nat) : List String → List String → List String
  | [], acc => acc
  | s :: rev, acc =>
    if csum acc + s.length ≤ overlap then overlapTailAux overlap rev (s :: acc)
    else acc

/-- Modelled from the spec: the trailing `overlapChars` worth of whole
sentences of the chunk just closed, used to seed the next chunk. -/
def overlapTail (overlap : Nat) (cur : List String) : List String :=
  overlapTailAux overlap cur.reverse []

/-- Split a character list into consecutive pieces of at most `maxChars`
characters (the fuel argument is the list length). -/
def splitCharsAux (maxChars : Nat) : Nat → List Char → List (List Char)
  | 0, cs => if cs = [] then [] else [cs]
  | fuel + 1, cs =>
    if cs = [] then []
    else if maxChars = 0 then [cs]
    else cs.take maxChars :: splitCharsAux maxChars fuel (cs.drop maxChars)

/-- Modelled from the spec: a single sentence longer than `maxChars` is
hard-split at a character boundary as a last resort. -/
def hardSplit (maxChars : Nat) (s : String) : List String :=
  (splitCharsAux maxChars s.length s.data).map String.mk

/-- Modelled from the spec: accumulate sentences into the current chunk
until adding the next sentence would exceed `maxChars`; at that point close
the current chunk and open a new one seeded with the trailing
`overlapChars` worth of sentences from the chunk just closed (never
splitting mid-sentence); an over-long sentence is hard-split.  Each chunk
is represented as its list of sentences. -/
def chunkRun (maxChars overlap : Nat) :
    List String → List String → List (List String)
  | cur, [] => if cur = [] then [] else [cur]
  | cur, s :: rest =>
    if csum cur + s.length ≤ maxChars then
      chunkRun maxChars overlap (cur ++ [s]) rest
    else if maxChars < s.length then
      (if cur = [] then [] else [cur]) ++
        (hardSplit maxChars s).map (fun p => [p]) ++
        chunkRun maxChars overlap [] rest
    else
      (if cur = [] then [] else [cur]) ++
        (if csum (overlapTail overlap cur) + s.length ≤ maxChars then
          chunkRun maxChars overlap (overlapTail overlap cur ++ [s]) rest
        else
          chunkRun maxChars overlap [s] rest)

/-- The chunk contents produced for a sentence stream. -/
def chunkContents (maxChars overlap : Nat) (sentences : List String) :
    List String :=
  (chunkRun maxChars overlap [] sentences).map joinStr

/-- Helper for `splitSentences`: accumulate characters of the current
sentence (in reverse) and close a sentence at every full stop. -/
def splitSentencesAux : List Char → List Char → List String
  | [], [] => []
  | [], acc => [String.mk acc.reverse]
  | c :: cs, acc =>
    if c = '.' then String.mk (c :: acc).reverse :: splitSentencesAux cs []
    else splitSentencesAux cs (c :: acc)

/-- Modelled from the spec: segment text into sentences (full-stop
boundaries, keeping every character). -/
def splitSentences (t : String) : List String := splitSentencesAux t.data []

/-- Modelled from the spec: Chunk — content, originating page url, depth,
ordinal index within the page, total chunk count for that page, token
count. -/
structure Chunk where
  content : String
  url : Url
  depth : Nat
  chunk_index : Nat
  total_chunks : Nat
  token_count : Nat
deriving DecidableEq

/-- Modelled from the spec: approximate token count via a deterministic
tokenizer consistent across the pipeline (four characters per token). -/
def approxTokens (s : String) : Nat := s.length / 4

/-- Number the chunk contents of one page: ordinal indices 0,1,2,… and the
page's total chunk count backfilled into every chunk. -/
def mkChunks (u : Url) (d : Nat) (contents : List String) : List Chunk :=
  ((List.range contents.length).zip contents).map fun ic =>
    { content := ic.2, url := u, depth := d, chunk_index := ic.1,
      total_chunks := contents.length, token_count := approxTokens ic.2 }

/-- All chunks emitted for one crawled page. -/
def chunksOfPage (job : CrawlJob) (p : PageRecord) : List Chunk :=
  mkChunks p.url p.depth
    (chunkContents job.maxChars job.overlapChars (splitSentences p.text))

/-! ### Entity and topic extraction -/

/-- Modelled from the spec: EntityCollection — mapping from category name to
distinct string values. -/
structure EntityCollection where
  companies : List String
  products : List String
  services : List String
  technologies : List String
  locations : List String
  contact_info : List String
deriving DecidableEq

/-- The empty entity collection. -/
def EntityCollection.empty : EntityCollection := ⟨[], [], [], [], [], []⟩

/-- A word is capitalized when its first character is upper case. -/
def isCapitalized (w : String) : Bool :=
  match w.data with
  | [] => false
  | c :: _ => c.isUpper

/-- Modelled from the spec: curated legal-suffix tokens for companies. -/
def legalSuffixes : List String := ["Inc", "Inc.", "LLC", "Corp", "Corp.", "Ltd", "GmbH"]

/-- Modelled from the spec: curated technology vocabulary. -/
def techVocab : List String :=
  ["Python", "React", "AWS", "PostgreSQL", "Redis", "Docker", "FastAPI"]

/-- Modelled from the spec: curated gazetteer of place names. -/
def gazetteer : List String :=
  ["London", "Paris", "Berlin", "Tokyo", "Texas", "France"]

/-- Modelled from the spec: tier keywords marking products. -/
def tierKeywords : List String := ["Pro", "Basic", "Premium", "Enterprise"]

/-- Modelled from the spec: keywords marking services. -/
def serviceKeywords : List String :=
  ["Service", "Services", "Support", "Consulting"]

/-- ASCII lower-casing of a string, character by character. -/
def lowerStr (s : String) : String := String.mk (s.data.map Char.toLower)

/-- Modelled from the spec: de-duplication of entity values, case-normalized,
keeping first occurrences. -/
def dedupCI (l : List String) : List String :=
  l.foldl
    (fun acc s =>
      if acc.any (fun x => lowerStr x == lowerStr s) then acc else acc ++ [s])
    []

/-- Modelled from the spec: companies are capitalized words followed by a
legal-suffix token. -/
def companiesOf (ws : List String) : List String :=
  (ws.zip ws.tail).filterMap fun ab =>
    if isCapitalized ab.1 ∧ ab.2 ∈ legalSuffixes then
      some (ab.1 ++ " " ++ ab.2)
    else none

/-- Modelled from the spec: products are capitalized words next to a tier
keyword. -/
def productsOf (ws : List String) : List String :=
  (ws.zip ws.tail).filterMap fun ab =>
    if isCapitalized ab.1 ∧ ab.2 ∈ tierKeywords then
      some (ab.1 ++ " " ++ ab.2)
    else none

/-- Modelled from the spec: services are capitalized words next to a service
keyword. -/
def servicesOf (ws : List String) : List String :=
  (ws.zip ws.tail).filterMap fun ab =>
    if isCapitalized ab.1 ∧ ab.2 ∈ serviceKeywords then
      some (ab.1 ++ " " ++ ab.2)
    else none

/-- Modelled from the spec: technologies by vocabulary membership. -/
def technologiesOf (ws : List String) : List String :=
  ws.filter fun w => decide (w ∈ techVocab)

/-- Modelled from the spec: locations by gazetteer membership. -/
def locationsOf (ws : List String) : List String :=
  ws.filter fun w => decide (w ∈ gazetteer)

/-- Modelled from the spec: contact info — words carrying an @ sign. -/
def contactInfoOf (ws : List String) : List String :=
  ws.filter fun w => w.data.contains '@'

/-- Modelled from the spec: `Analyze` entity half — categorized entities
extracted from the text by the per-category matchers, de-duplicated. -/
def extractEntities (t : String) : EntityCollection :=
  { companies := dedupCI (companiesOf (wordsOf t)),
    products := dedupCI (productsOf (wordsOf t)),
    services := dedupCI (servicesOf (wordsOf t)),
    technologies := dedupCI (technologiesOf (wordsOf t)),
    locations := dedupCI (locationsOf (wordsOf t)),
    contact_info := dedupCI (contactInfoOf (wordsOf t)) }

/-- A scored topic candidate: the term, its score and the word index of its
first occurrence in the text. -/
structure ScoredTopic where
  term : String
  score : Nat
  firstIdx : Nat
deriving DecidableEq

/-- Modelled from the spec: stop-words excluded from topic candidates. -/
def stopwords : List String :=
  ["The", "A", "An", "This", "That", "It", "We", "Our"]

/-- Topic candidates: capitalized non-stop-words with their word index. -/
def candidatePairs (ws : List String) : List (String × Nat) :=
  (ws.enum.filter fun ia =>
    isCapitalized ia.2 && decide (ia.2 ∉ stopwords)).map fun ia => (ia.2, ia.1)

/-- Keep only the first occurrence of every term (fuel = list length). -/
def firstOccAux : Nat → List (String × Nat) → List (String × Nat)
  | 0, _ => []
  | _, [] => []
  | fuel + 1, p :: rest =>
    p :: firstOccAux fuel (rest.filter fun q => q.1 != p.1)

/-- First occurrences of the candidate terms, in text order. -/
def firstOcc (l : List (String × Nat)) : List (String × Nat) :=
  firstOccAux l.length l

/-- Modelled from the spec: position bonus for terms appearing in the first
or last two sentences of the text. -/
def posBonus (t : String) (w : String) : Nat :=
  if w ∈ wordsOf (joinStr ((splitSentences t).take 2)) ∨
     w ∈ wordsOf (joinStr
       ((splitSentences t).drop ((splitSentences t).length - 2))) then 2
  else 0

/-- Modelled from the spec: length bonus favoring longer terms. -/
def lengthBonus (w : String) : Nat := if 8 ≤ w.length then 1 else 0

/-- Modelled from the spec: term-frequency score weighted by the position
bonus and the length bonus. -/
def scoreOf (t : String) (w : String) : Nat :=
  2 * (wordsOf t).count w + posBonus t w + lengthBonus w

/-- Ranking order on scored topics: higher score first; equal scores are
ordered by first occurrence in the text. -/
def topicRel (a b : ScoredTopic) : Prop :=
  b.score < a.score ∨ (a.score = b.score ∧ a.firstIdx ≤ b.firstIdx)

instance : DecidableRel topicRel := fun a b => by
  unfold topicRel
  infer_instance

instance : IsTotal ScoredTopic topicRel :=
  ⟨fun a b => by unfold topicRel; omega⟩

instance : IsTrans ScoredTopic topicRel :=
  ⟨fun a b c hab hbc => by unfold topicRel at hab hbc ⊢; omega⟩

/-- The scored topic candidates of a text, ranked by score (ties broken by
first occurrence). -/
def rankTopics (t : String) : List ScoredTopic :=
  List.insertionSort topicRel
    ((firstOcc (candidatePairs (wordsOf t))).map fun wi =>
      ⟨wi.1, scoreOf t wi.1, wi.2⟩)

/-- Modelled from the spec: the configurable top-N cutoff (default 10). -/
def topN : Nat := 10

/-- Modelled from the spec: `Analyze` topic half — the top-N ranked terms. -/
def extractTopics (t : String) : List String :=
  ((rankTopics t).take topN).map ScoredTopic.term

/-- Modelled from the spec: `Analyze(text) -> (EntityCollection, topics)`. -/
def analyzeText (t : String) : EntityCollection × List String :=
  (extractEntities t, extractTopics t)

/-! ### Job validation -/

/-- Modelled from the spec: ConfigError — invalid job parameters (overlap ≥
chunk size, non-positive limits). -/
inductive ConfigError where
  | overlapNotLessThanChunk
  | nonPositiveLimit
deriving DecidableEq

/-- Modelled from the spec: job validation, performed before any crawling
starts. -/
def validateJob (job : CrawlJob) : Option ConfigError :=
  if job.max_pages = 0 then some .nonPositiveLimit
  else if job.maxChars = 0 then some .nonPositiveLimit
  else if job.maxChars ≤ job.overlapChars then some .overlapNotLessThanChunk
  else none

/-- Modelled from the spec: run a job — validation first; a configuration
error fails the job before any page is fetched, otherwise the crawl runs. -/
def runJob (job : CrawlJob) (web : Web) (fuel : Nat) :
    Except ConfigError CrawlState :=
  match validateJob job with
  | some e => .error e
  | none => .ok (crawl job web fuel)

/-- An example job whose overlap equals its chunk size. -/
def jobBad : CrawlJob :=
  { root := urlA, max_depth := 2, max_pages := 10, delay := 1,
    maxChars := 10, overlapChars := 10 }

/-! ### Onboarding URL normalization (embedded from the admin panel's
`handleSubmit`) -/

/-- Strip whitespace from both ends of a character list, as JavaScript's
`String.prototype.trim` does. -/
def trimChars (l : List Char) : List Char :=
  ((l.dropWhile Char.isWhitespace).reverse.dropWhile Char.isWhitespace).reverse

/-- `formData.url.trim()`. -/
def jsTrim (s : String) : String := String.mk (trimChars s.data)

/-- Case-insensitive character comparison (the regex `i` flag). -/
def ciEq (c p : Char) : Bool := c.toLower == p.toLower

/-- Case-insensitive prefix test: does the second list start with the
first? -/
def ciStartsWith : List Char → List Char → Bool
  | [], _ => true
  | _ :: _, [] => false
  | p :: ps, c :: cs => ciEq c p && ciStartsWith ps cs

/-- The characters of `http://`. -/
def httpChars : List Char := ['h', 't', 't', 'p', ':', '/', '/']

/-- The characters of `https://`. -/
def httpsChars : List Char := ['h', 't', 't', 'p', 's', ':', '/', '/']

/-- Matcher for the `://` part of the scheme. -/
def colonSS : List Char → Bool
  | a :: b :: c :: _ => ciEq a ':' && ciEq b '/' && ciEq c '/'
  | _ => false

/-- Matcher for the `s?://` part of the scheme: either `://` directly or an
optional `s` followed by `://`. -/
def afterHttpTest (rest : List Char) : Bool :=
  colonSS rest ||
    (match rest with
     | c :: rest2 => ciEq c 's' && colonSS rest2
     | [] => false)

/-- Embedded from `handleSubmit`: the test `/^https?:\/\//i.test(url)` —
`h`, `t`, `t`, `p` case-insensitively, then an optional `s`, then `://`. -/
def regexHttpSTest : List Char → Bool
  | c0 :: c1 :: c2 :: c3 :: rest =>
    ciEq c0 'h' && ciEq c1 't' && ciEq c2 't' && ciEq c3 'p' &&
      afterHttpTest rest
  | _ => false

/-- Embedded from `handleSubmit` (admin panel onboarding page): trim the
entered URL; if the trimmed string does not match `/^https?:\/\//i`,
prefix it with `https://`; the result is submitted as `root_url`. -/
def formattedUrlOf (input : String) : String :=
  if regexHttpSTest (jsTrim input).data then jsTrim input
  else "https://" ++ jsTrim input

/-- The claim's wording: the submitted root URL is the trimmed input,
prefixed with `https://` exactly when the trimmed input does not already
start with `http://` or `https://` case-insensitively. -/
def claimRootUrl (input : String) : String :=
  if ciStartsWith httpChars (jsTrim input).data ∨
     ciStartsWith httpsChars (jsTrim input).data then jsTrim input
  else "https://" ++ jsTrim input

/-! ### Lemmas: crawl invariant preservation -/

/-- Characterization of the links enqueued after a successful fetch. -/
lemma mem_freshLinks {job : CrawlJob} {v : List Url}
    {rest : List FrontierEntry} {links : List Url} {l : Url} :
    l ∈ freshLinks job v rest links ↔
      l ∈ links ∧ l.host = job.root.host ∧ l ∉ v ∧ ∀ e' ∈ rest, e'.url ≠ l := by
  simp [freshLinks, List.mem_filter]

/-- A list all of whose elements equal a constant is sorted. -/
lemma sorted_of_all_eq {c : Nat} : ∀ {l : List Nat}, (∀ x ∈ l, x = c) →
    List.Sorted (· ≤ ·) l
  | [], _ => List.sorted_nil
  | x :: xs, h => by
    have hx : x = c := h x (by simp)
    have hxs : ∀ y ∈ xs, y = c := fun y hy => h y (by simp [hy])
    refine List.Pairwise.cons ?_ (sorted_of_all_eq hxs)
    intro y hy
    rw [hx, hxs y hy]

/-- The initial state satisfies the invariant. -/
lemma inv_init (job : CrawlJob) (web : Web) : Inv job web (initState job) := by
  constructor <;> simp [initState, spanOK]

/-- Discarding the head frontier entry preserves the invariant. -/
lemma inv_pop (job : CrawlJob) (web : Web) {s : CrawlState}
    {e : FrontierEntry} {rest : List FrontierEntry}
    (hfr : s.frontier = e :: rest) (h : Inv job web s) :
    Inv job web { s with frontier := rest } := by
  obtain ⟨h1, h2, h2b, h3, h4, h5a, h5b, h6, h7, h8, h9⟩ := h
  rw [hfr] at h5a h5b h8 h9
  refine ⟨h1, h2, h2b, h3, h4, ?_, ?_, h6, h7, ?_, ?_⟩
  · exact fun e' he' => h5a e' (by simp [he'])
  · exact fun e' he' => h5b e' (by simp [he'])
  · refine List.Pairwise.sublist ?_ h8
    exact (List.sublist_cons_self _ _).append_left _
  · show spanOK (rest.map FrontierEntry.depth)
    cases rest with
    | nil => simp [spanOK]
    | cons r t =>
      simp only [List.map_cons, spanOK] at h9 ⊢
      intro x hx
      have hx1 : x ≤ e.depth + 1 := h9 x (by simpa using Or.inr hx)
      have her : e.depth ≤ r.depth := by
        have hp := (List.pairwise_append.mp h8).2.1
        rw [List.map_cons, List.pairwise_cons] at hp
        exact hp.1 r.depth (by simp)
      rcases hx with hx | hx
      · omega
      · have hx2 : x ≤ e.depth + 1 := hx1
        omega

/-- A list all of whose elements equal a constant satisfies `spanOK`. -/
lemma spanOK_of_all_eq {c : Nat} {l : List Nat} (h : ∀ x ∈ l, x = c) :
    spanOK l := by
  cases l with
  | nil => trivial
  | cons d rest =>
    intro x hx
    have hd : d = c := h d (by simp)
    have hx' : x = c := h x hx
    omega

/-- One crawl-loop iteration preserves the invariant. -/
lemma inv_step (job : CrawlJob) (web : Web) {s s' : CrawlState}
    (hstep : step job web s = some s') (h : Inv job web s) :
    Inv job web s' := by
  cases hfr : s.frontier with
  | nil =>
    unfold step at hstep
    rw [hfr] at hstep
    simp at hstep
  | cons e rest =>
    unfold step at hstep
    rw [hfr] at hstep
    dsimp only at hstep
    have he : e ∈ s.frontier := by rw [hfr]; exact List.mem_cons_self e rest
    have hold : List.Sorted (· ≤ ·) (s.order.map FrontierEntry.depth ++
        FrontierEntry.depth e :: rest.map FrontierEntry.depth) := by
      have hb := h.bfs
      rw [hfr] at hb
      simpa using hb
    have hfsorted : List.Sorted (· ≤ ·)
        (FrontierEntry.depth e :: rest.map FrontierEntry.depth) :=
      (List.pairwise_append.mp hold).2.1
    have hspan : spanOK (FrontierEntry.depth e ::
        rest.map FrontierEntry.depth) := by
      have hsp := h.span
      rw [hfr] at hsp
      simpa using hsp
    by_cases hmp : job.max_pages ≤ s.pages_scraped
    · rw [if_pos hmp] at hstep
      simp at hstep
    rw [if_neg hmp] at hstep
    by_cases hdeep : job.max_depth < e.depth
    · rw [if_pos hdeep] at hstep
      obtain rfl := Option.some.inj hstep
      exact inv_pop job web hfr h
    rw [if_neg hdeep] at hstep
    by_cases hvis : e.url ∈ s.visited
    · rw [if_pos hvis] at hstep
      obtain rfl := Option.some.inj hstep
      exact inv_pop job web hfr h
    rw [if_neg hvis] at hstep
    by_cases hnt : isNonText e.url = true
    · rw [if_pos hnt] at hstep
      obtain rfl := Option.some.inj hstep
      exact inv_pop job web hfr h
    rw [if_neg hnt] at hstep
    cases hweb : web e.url with
    | ok text links =>
      rw [hweb] at hstep
      dsimp only at hstep
      obtain rfl := Option.some.inj hstep
      have hD : ∀ x ∈ (List.map FrontierEntry.depth
          ((freshLinks job (e.url :: s.visited) rest links).map
            fun l => ⟨l, e.depth + 1⟩)), x = e.depth + 1 := by
        intro x hx
        simp only [List.map_map, List.mem_map] at hx
        obtain ⟨l, _, rfl⟩ := hx
        rfl
      refine ⟨?_, ?_, ?_, ?_, ?_, ?_, ?_, ?_, ?_, ?_, ?_⟩
      · show s.pages_scraped + 1 ≤ job.max_pages
        omega
      · intro x hx
        rcases List.mem_append.mp hx with hx | hx
        · exact h.order_depth x hx
        · simp only [List.mem_singleton] at hx
          subst hx
          omega
      · intro x hx
        rcases List.mem_append.mp hx with hx | hx
        · exact h.order_host x hx
        · simp only [List.mem_singleton] at hx
          rw [hx]
          exact h.frontier_host e he
      · intro p hp
        rcases List.mem_append.mp hp with hp | hp
        · exact h.pages_ok p hp
        · simp only [List.mem_singleton] at hp
          subst hp
          dsimp only [mkRecord]
          exact ⟨by omega, h.frontier_host e he, rfl, rfl, hweb⟩
      · exact h.failures_ok
      · intro x hx
        rcases List.mem_append.mp hx with hx | hx
        · exact h.frontier_host x (by rw [hfr]; exact List.mem_cons_of_mem e hx)
        · obtain ⟨l, hl, rfl⟩ := List.mem_map.mp hx
          exact (mem_freshLinks.mp hl).2.1
      · intro x hx
        rcases List.mem_append.mp hx with hx | hx
        · rcases h.frontier_src x (by rw [hfr]; exact List.mem_cons_of_mem e hx)
            with hr | ⟨p, hp, hlp⟩
          · exact Or.inl hr
          · exact Or.inr ⟨p, List.mem_append_left _ hp, hlp⟩
        · obtain ⟨l, hl, rfl⟩ := List.mem_map.mp hx
          refine Or.inr ⟨mkRecord e text links, List.mem_append_right _ (by simp), ?_⟩
          exact (mem_freshLinks.mp hl).1
      · intro u hu
        rcases List.mem_cons.mp hu with hu | hu
        · subst hu
          rcases h.frontier_src e he with hr | ⟨p, hp, hlp⟩
          · exact Or.inl hr
          · exact Or.inr ⟨p, List.mem_append_left _ hp, hlp⟩
        · rcases h.visited_src u hu with hr | ⟨p, hp, hlp⟩
          · exact Or.inl hr
          · exact Or.inr ⟨p, List.mem_append_left _ hp, hlp⟩
      · intro x hx
        rcases List.mem_append.mp hx with hx | hx
        · rcases h.order_rec x hx with ⟨p, hp, hq⟩ | ⟨f, hf, hq⟩
          · exact Or.inl ⟨p, List.mem_append_left _ hp, hq⟩
          · exact Or.inr ⟨f, hf, hq⟩
        · simp only [List.mem_singleton] at hx
          rw [hx]
          exact Or.inl ⟨mkRecord e text links,
            List.mem_append_right _ (by simp), rfl, rfl⟩
      · show List.Sorted (· ≤ ·) _
        have hmain : List.Sorted (· ≤ ·)
            ((s.order.map FrontierEntry.depth ++
              FrontierEntry.depth e :: rest.map FrontierEntry.depth) ++
              (List.map FrontierEntry.depth
                ((freshLinks job (e.url :: s.visited) rest links).map
                  fun l => ⟨l, e.depth + 1⟩))) := by
          refine List.pairwise_append.mpr ⟨hold, sorted_of_all_eq hD, ?_⟩
          intro a ha b hb
          rw [hD b hb]
          rcases List.mem_append.mp ha with ha | ha
          · have : a ≤ FrontierEntry.depth e :=
              (List.pairwise_append.mp hold).2.2 a ha _ (by simp)
            omega
          · rcases List.mem_cons.mp ha with ha | ha
            · omega
            · have := hspan a (by simp [ha])
              omega
        simpa [List.append_assoc] using hmain
      · show spanOK _
        cases hr : rest with
        | nil =>
          subst hr
          simp only [List.nil_append, List.map_map]
          exact spanOK_of_all_eq (c := e.depth + 1) (by
            intro x hx
            simp only [List.mem_map] at hx
            obtain ⟨l, _, rfl⟩ := hx
            rfl)
        | cons r t =>
          subst hr
          simp only [List.cons_append, List.map_cons, List.map_append]
          have her : FrontierEntry.depth e ≤ r.depth := by
            have := (List.pairwise_cons.mp hfsorted).1 r.depth (by simp)
            exact this
          intro x hx
          rcases List.mem_cons.mp hx with hx | hx
          · omega
          rcases List.mem_append.mp hx with hx | hx
          · have hxm : x ∈ FrontierEntry.depth e ::
                List.map FrontierEntry.depth (r :: t) :=
              List.mem_cons_of_mem _
                (by simp only [List.map_cons]; exact List.mem_cons_of_mem _ hx)
            have := hspan x hxm
            omega
          · have := hD x hx
            omega
    | fail err =>
      rw [hweb] at hstep
      dsimp only at hstep
      obtain rfl := Option.some.inj hstep
      refine ⟨h.scraped_le, ?_, ?_, h.pages_ok, ?_, ?_, ?_, ?_, ?_, ?_, ?_⟩
      · intro x hx
        rcases List.mem_append.mp hx with hx | hx
        · exact h.order_depth x hx
        · simp only [List.mem_singleton] at hx
          subst hx
          omega
      · intro x hx
        rcases List.mem_append.mp hx with hx | hx
        · exact h.order_host x hx
        · simp only [List.mem_singleton] at hx
          rw [hx]
          exact h.frontier_host e he
      · intro f hf
        rcases List.mem_append.mp hf with hf | hf
        · exact h.failures_ok f hf
        · simp only [List.mem_singleton] at hf
          subst hf
          exact ⟨by dsimp only; omega, h.frontier_host e he, hweb⟩
      · intro x hx
        exact h.frontier_host x (by rw [hfr]; exact List.mem_cons_of_mem e hx)
      · intro x hx
        exact h.frontier_src x (by rw [hfr]; exact List.mem_cons_of_mem e hx)
      · intro u hu
        rcases List.mem_cons.mp hu with hu | hu
        · subst hu
          exact h.frontier_src e he
        · exact h.visited_src u hu
      · intro x hx
        rcases List.mem_append.mp hx with hx | hx
        · rcases h.order_rec x hx with hq | ⟨f, hf, hq⟩
          · exact Or.inl hq
          · exact Or.inr ⟨f, List.mem_append_left _ hf, hq⟩
        · simp only [List.mem_singleton] at hx
          rw [hx]
          exact Or.inr ⟨⟨e.url, e.depth, err⟩,
            List.mem_append_right _ (by simp), rfl, rfl⟩
      · show List.Sorted (· ≤ ·) _
        simpa [List.append_assoc] using hold
      · show spanOK _
        cases hr : rest with
        | nil => trivial
        | cons r t =>
          subst hr
          simp only [List.map_cons]
          have her : FrontierEntry.depth e ≤ r.depth :=
            (List.pairwise_cons.mp hfsorted).1 r.depth (by simp)
          intro x hx
          rcases List.mem_cons.mp hx with hx | hx
          · omega
          · have hxm : x ∈ FrontierEntry.depth e ::
                List.map FrontierEntry.depth (r :: t) :=
              List.mem_cons_of_mem _
                (by simp only [List.map_cons]; exact List.mem_cons_of_mem _ hx)
            have := hspan x hxm
            omega

/-- Any number of crawl-loop iterations preserves the invariant. -/
lemma inv_crawlLoop (job : CrawlJob) (web : Web) :
    ∀ (fuel : Nat) (s : CrawlState), Inv job web s →
      Inv job web (crawlLoop job web fuel s)
  | 0, s, h => h
  | fuel + 1, s, h => by
    unfold crawlLoop
    cases hs : step job web s with
    | none => exact h
    | some s' => exact inv_crawlLoop job web fuel s' (inv_step job web hs h)

/-- Every state reached by the crawl satisfies the invariant. -/
lemma inv_crawl (job : CrawlJob) (web : Web) (fuel : Nat) :
    Inv job web (crawl job web fuel) :=
  inv_crawlLoop job web fuel (initState job) (inv_init job web)

/-! ### Crawl claim theorems -/

/-- C1: at every point during a crawl `pages_scraped ≤ max_pages`, and every
page that is actually fetched (hence every recorded page) has depth at most
`max_depth`: the loop dequeues only while `pages_scraped < max_pages` and
discards any frontier entry whose depth exceeds `max_depth`. -/
theorem crawl_respects_limits (job : CrawlJob) (web : Web) (fuel : Nat) :
    (crawl job web fuel).pages_scraped ≤ job.max_pages ∧
    (∀ e ∈ (crawl job web fuel).order, e.depth ≤ job.max_depth) ∧
    ∀ p ∈ (crawl job web fuel).pages, p.depth ≤ job.max_depth :=
  ⟨(inv_crawl job web fuel).scraped_le,
   (inv_crawl job web fuel).order_depth,
   fun p hp => ((inv_crawl job web fuel).pages_ok p hp).1⟩

/-- Witness for C1 at the example crawl. -/
theorem crawl_respects_limits_witness :
    (crawl jobEx webEx 10).pages_scraped ≤ jobEx.max_pages ∧
    (⟨urlQ, 1⟩ : FrontierEntry).depth ≤ jobEx.max_depth :=
  ⟨(crawl_respects_limits jobEx webEx 10).1,
   (crawl_respects_limits jobEx webEx 10).2.1 ⟨urlQ, 1⟩ (by decide)⟩

/-- C2: only links whose hostname matches the root hostname exactly are ever
enqueued, so every fetched page (and every recorded page) has the root's
hostname; a link with any other hostname — subdomains included — is never
fetched. -/
theorem crawl_same_domain_only (job : CrawlJob) (web : Web) (fuel : Nat) :
    (∀ e ∈ (crawl job web fuel).order, e.url.host = job.root.host) ∧
    (∀ e ∈ (crawl job web fuel).frontier, e.url.host = job.root.host) ∧
    ∀ p ∈ (crawl job web fuel).pages, p.url.host = job.root.host :=
  ⟨(inv_crawl job web fuel).order_host,
   (inv_crawl job web fuel).frontier_host,
   fun p hp => ((inv_crawl job web fuel).pages_ok p hp).2.1⟩

/-- Witness for C2 at the example crawl: the fetched empty page has the
root's hostname (the external link to hostname `b` was never fetched). -/
theorem crawl_same_domain_only_witness :
    (⟨urlP, 1⟩ : FrontierEntry).url.host = jobEx.root.host :=
  (crawl_same_domain_only jobEx webEx 10).1 ⟨urlP, 1⟩ (by decide)

/-- C5: a fetch failure is non-fatal — every recorded page mirrors a
successful fetch, every recorded failure mirrors a failed fetch, every
fetched URL is recorded as exactly a page or a failure, and every URL on
the frontier was discovered from the root or from a successfully fetched
page (a failed page's links are never discovered). -/
theorem crawl_failure_isolated (job : CrawlJob) (web : Web) (fuel : Nat) :
    (∀ p ∈ (crawl job web fuel).pages,
      web p.url = .ok p.text p.links ∧ p.status = FetchStatus.ok) ∧
    (∀ f ∈ (crawl job web fuel).failures, web f.url = .fail f.error) ∧
    (∀ e ∈ (crawl job web fuel).order,
      (∃ p ∈ (crawl job web fuel).pages, p.url = e.url ∧ p.depth = e.depth) ∨
      ∃ f ∈ (crawl job web fuel).failures, f.url = e.url ∧ f.depth = e.depth) ∧
    ∀ e ∈ (crawl job web fuel).frontier,
      e.url = job.root ∨ ∃ p ∈ (crawl job web fuel).pages, e.url ∈ p.links :=
  ⟨fun p hp => ⟨((inv_crawl job web fuel).pages_ok p hp).2.2.2.2,
     ((inv_crawl job web fuel).pages_ok p hp).2.2.1⟩,
   fun f hf => ((inv_crawl job web fuel).failures_ok f hf).2.2,
   (inv_crawl job web fuel).order_rec,
   (inv_crawl job web fuel).frontier_src⟩

/-- Witness for C5 at the example crawl: the timed-out page is recorded as a
failure with its error, and the crawl still fetched the page queued behind
it. -/
theorem crawl_failure_isolated_witness :
    webEx (PageFailure.mk urlQ 1 "timeout").url =
      .fail (PageFailure.mk urlQ 1 "timeout").error ∧
    mkRecord ⟨urlP, 1⟩ "" [] ∈ (crawl jobEx webEx 10).pages :=
  ⟨(crawl_failure_isolated jobEx webEx 10).2.1 ⟨urlQ, 1, "timeout"⟩ (by decide),
   by decide⟩

/-- C8: the frontier is FIFO, so pages are fetched in non-decreasing depth
order (breadth-first). -/
theorem crawl_bfs_order (job : CrawlJob) (web : Web) (fuel : Nat) :
    List.Sorted (· ≤ ·)
      ((crawl job web fuel).order.map FrontierEntry.depth) :=
  List.Pairwise.sublist (List.sublist_append_left _ _)
    (inv_crawl job web fuel).bfs

/-! ### Lemmas: chunker -/

/-- The content of a chunk is exactly as long as its sentences together. -/
lemma joinStr_length : ∀ l : List String, (joinStr l).length = csum l
  | [] => rfl
  | s :: rest => by
    simp [joinStr, csum, String.length_append, joinStr_length rest]

/-- Elements produced by the overlap-tail walk come from its inputs. -/
lemma mem_overlapTailAux (overlap : Nat) :
    ∀ (rev acc : List String) (x : String),
      x ∈ overlapTailAux overlap rev acc → x ∈ rev ∨ x ∈ acc
  | [], _, _, h => Or.inr h
  | s :: rev, acc, x, h => by
    unfold overlapTailAux at h
    split at h
    · rcases mem_overlapTailAux overlap rev (s :: acc) x h with h1 | h1
      · exact Or.inl (List.mem_cons_of_mem _ h1)
      · rcases List.mem_cons.mp h1 with h2 | h2
        · exact Or.inl (by rw [h2]; exact List.mem_cons_self _ _)
        · exact Or.inr h2
    · exact Or.inr h

/-- The overlap seed consists of sentences of the chunk just closed. -/
lemma mem_overlapTail {overlap : Nat} {cur : List String} {x : String}
    (h : x ∈ overlapTail overlap cur) : x ∈ cur := by
  rcases mem_overlapTailAux overlap cur.reverse [] x h with h1 | h1
  · exact List.mem_reverse.mp h1
  · simp at h1

/-- Hard-splitting preserves the total number of characters. -/
lemma splitCharsAux_sum (maxChars : Nat) :
    ∀ (fuel : Nat) (cs : List Char),
      ((splitCharsAux maxChars fuel cs).map List.length).sum = cs.length
  | 0, cs => by
    unfold splitCharsAux
    split
    · next h => simp [h]
    · simp
  | fuel + 1, cs => by
    unfold splitCharsAux
    split
    · next h => simp [h]
    · split
      · simp
      · simp [splitCharsAux_sum maxChars fuel (cs.drop maxChars),
          List.length_take, List.length_drop]
        omega

/-- The pieces of a hard-split sentence carry all of its characters. -/
lemma hardSplit_sum (maxChars : Nat) (s : String) :
    csum (hardSplit maxChars s) = s.length := by
  unfold hardSplit csum
  rw [List.map_map]
  have h1 : (String.length ∘ String.mk) = List.length := funext fun l => rfl
  rw [h1, splitCharsAux_sum]
  rfl

/-- Closing the current chunk emits at least its characters. -/
lemma closed_csum_le (cur : List String) :
    csum cur ≤
      (((if cur = [] then [] else [cur]) : List (List String)).map csum).sum := by
  split
  · next h => simp [h, csum]
  · simp

/-- No text is lost by chunking: the emitted chunks together contain at
least all input characters (overlap only duplicates). -/
lemma chunkRun_osum (maxChars overlap : Nat) :
    ∀ (l cur : List String),
      csum cur + csum l ≤ ((chunkRun maxChars overlap cur l).map csum).sum
  | [], cur => by
    unfold chunkRun
    split
    · next h => simp [h, csum]
    · simp [csum]
  | s :: rest, cur => by
    have hs : csum (s :: rest) = s.length + csum rest := by simp [csum]
    unfold chunkRun
    split
    · next hfit =>
      have ih := chunkRun_osum maxChars overlap rest (cur ++ [s])
      have hc : csum (cur ++ [s]) = csum cur + s.length := by simp [csum]
      omega
    · split
      · next hlong =>
        have ih := chunkRun_osum maxChars overlap rest []
        have h0 : csum ([] : List String) = 0 := rfl
        have hcur := closed_csum_le cur
        have hhs : (((hardSplit maxChars s).map fun p => [p]).map csum).sum
            = s.length := by
          rw [List.map_map]
          have h2 : (csum ∘ fun p => [p]) = String.length :=
            funext fun p => by simp [csum]
          rw [h2]
          exact hardSplit_sum maxChars s
        simp only [List.map_append, List.sum_append]
        omega
      · rw [List.map_append, List.sum_append]
        have hcur := closed_csum_le cur
        by_cases hseed : csum (overlapTail overlap cur) + s.length ≤ maxChars
        · rw [if_pos hseed]
          have ih := chunkRun_osum maxChars overlap rest
            (overlapTail overlap cur ++ [s])
          have hc : csum (overlapTail overlap cur ++ [s]) =
              csum (overlapTail overlap cur) + s.length := by simp [csum]
          omega
        · rw [if_neg hseed]
          have ih := chunkRun_osum maxChars overlap rest [s]
          have hc : csum [s] = s.length := by simp [csum]
          omega

/-- Total content length over joined chunks equals the summed sentence
lengths over the chunks. -/
lemma csum_map_joinStr : ∀ out : List (List String),
    csum (out.map joinStr) = (out.map csum).sum
  | [] => rfl
  | c :: out => by
    have ih := csum_map_joinStr out
    simp only [List.map_cons, List.sum_cons]
    have h1 : csum (joinStr c :: List.map joinStr out) =
        (joinStr c).length + csum (List.map joinStr out) := by
      simp [csum]
    rw [h1, joinStr_length, ih]

/-- When every sentence fits in `maxChars`, every emitted chunk is built
only of whole input sentences (no boundary falls inside a sentence). -/
lemma chunkRun_mem (maxChars overlap : Nat) :
    ∀ (l cur : List String), (∀ s ∈ l, s.length ≤ maxChars) →
      ∀ c ∈ chunkRun maxChars overlap cur l, ∀ x ∈ c, x ∈ cur ∨ x ∈ l
  | [], cur, _, c, hc, x, hx => by
    unfold chunkRun at hc
    split at hc
    · simp at hc
    · simp only [List.mem_singleton] at hc
      subst hc
      exact Or.inl hx
  | s :: rest, cur, hlen, c, hc, x, hx => by
    unfold chunkRun at hc
    split at hc
    · rcases chunkRun_mem maxChars overlap rest (cur ++ [s])
        (fun t ht => hlen t (List.mem_cons_of_mem _ ht)) c hc x hx with h1 | h1
      · rcases List.mem_append.mp h1 with h2 | h2
        · exact Or.inl h2
        · simp only [List.mem_singleton] at h2
          exact Or.inr (by rw [h2]; exact List.mem_cons_self _ _)
      · exact Or.inr (List.mem_cons_of_mem _ h1)
    · split at hc
      · next hlong =>
        exact absurd (hlen s (List.mem_cons_self _ _)) (by omega)
      · rcases List.mem_append.mp hc with h1 | h1
        · split at h1
          · simp at h1
          · simp only [List.mem_singleton] at h1
            subst h1
            exact Or.inl hx
        · split at h1
          · rcases chunkRun_mem maxChars overlap rest
              (overlapTail overlap cur ++ [s])
              (fun t ht => hlen t (List.mem_cons_of_mem _ ht)) c h1 x hx
              with h2 | h2
            · rcases List.mem_append.mp h2 with h3 | h3
              · exact Or.inl (mem_overlapTail h3)
              · simp only [List.mem_singleton] at h3
                exact Or.inr (by rw [h3]; exact List.mem_cons_self _ _)
            · exact Or.inr (List.mem_cons_of_mem _ h2)
          · rcases chunkRun_mem maxChars overlap rest [s]
              (fun t ht => hlen t (List.mem_cons_of_mem _ ht)) c h1 x hx
              with h2 | h2
            · simp only [List.mem_singleton] at h2
              exact Or.inr (by rw [h2]; exact List.mem_cons_self _ _)
            · exact Or.inr (List.mem_cons_of_mem _ h2)

/-- C3: with positive overlap the chunks of a page together are at least as
long as the page's text for every input — overlap duplicates text, none is
lost, hard-split pieces included — and, given well-formed sentence
segmentation where no single sentence exceeds `maxChars` (the hard-split
being the claim's only exception), no chunk boundary falls inside a
sentence: every chunk is a block of whole input sentences. -/
theorem chunking_covers_text (maxChars overlap : Nat) (sentences : List String)
    (hov : 0 < overlap) :
    (joinStr sentences).length ≤
      csum (chunkContents maxChars overlap sentences) ∧
    ((∀ s ∈ sentences, s.length ≤ maxChars) →
      ∀ c ∈ chunkRun maxChars overlap [] sentences, ∀ x ∈ c, x ∈ sentences) := by
  constructor
  · rw [joinStr_length]
    unfold chunkContents
    rw [csum_map_joinStr]
    have h2 := chunkRun_osum maxChars overlap sentences []
    have h0 : csum ([] : List String) = 0 := rfl
    omega
  · intro hfit c hc x hx
    rcases chunkRun_mem maxChars overlap sentences [] hfit c hc x hx with h | h
    · simp at h
    · exact h

/-- Witness for C3 on a concrete sentence stream where the overlap seed
duplicates the middle sentence. -/
theorem chunking_covers_text_witness :
    (0 < 3) ∧
    (joinStr ["ab.", "cd.", "ef."]).length ≤
      csum (chunkContents 7 3 ["ab.", "cd.", "ef."]) ∧
    "cd." ∈ (["ab.", "cd.", "ef."] : List String) :=
  ⟨by decide,
   (chunking_covers_text 7 3 ["ab.", "cd.", "ef."] (by decide)).1,
   (chunking_covers_text 7 3 ["ab.", "cd.", "ef."] (by decide)).2
     (by decide) ["cd.", "ef."] (by decide) "cd." (by decide)⟩

/-! ### Lemmas: chunk numbering -/

/-- Numbering the chunk contents keeps their count. -/
lemma mkChunks_length (u : Url) (d : Nat) (contents : List String) :
    (mkChunks u d contents).length = contents.length := by
  simp [mkChunks]

/-- The chunk indices of a page are exactly 0,1,…,(count-1) in order. -/
lemma mkChunks_map_index (u : Url) (d : Nat) (contents : List String) :
    (mkChunks u d contents).map Chunk.chunk_index =
      List.range contents.length := by
  unfold mkChunks
  rw [List.map_map]
  have h1 : (Chunk.chunk_index ∘ fun ic : Nat × String =>
      ({ content := ic.2, url := u, depth := d, chunk_index := ic.1,
         total_chunks := contents.length,
         token_count := approxTokens ic.2 } : Chunk)) = Prod.fst :=
    funext fun ic => rfl
  rw [h1]
  exact List.map_fst_zip _ _ (by simp)

/-- Every chunk of a page records the page's total chunk count. -/
lemma mkChunks_total (u : Url) (d : Nat) (contents : List String) :
    ∀ c ∈ mkChunks u d contents, c.total_chunks = contents.length := by
  intro c hc
  obtain ⟨ic, _, rfl⟩ := List.mem_map.mp hc
  rfl

/-- C4: the chunk_index values of a page's chunks form exactly the
contiguous sequence 0..total_chunks-1 (each once, strictly increasing, no
gaps), and every chunk's total_chunks equals the number of chunks emitted
for the page. -/
theorem chunk_indices_contiguous (job : CrawlJob) (p : PageRecord) :
    (chunksOfPage job p).map Chunk.chunk_index =
      List.range (chunksOfPage job p).length ∧
    ∀ c ∈ chunksOfPage job p, c.total_chunks = (chunksOfPage job p).length := by
  constructor
  · unfold chunksOfPage
    rw [mkChunks_length]
    exact mkChunks_map_index _ _ _
  · unfold chunksOfPage
    rw [mkChunks_length]
    exact mkChunks_total _ _ _

/-- Witness for C4 at a concrete page with one chunk. -/
theorem chunk_indices_contiguous_witness :
    (chunksOfPage jobEx (mkRecord ⟨urlA, 0⟩ "Hi there. Bye." [])).map
      Chunk.chunk_index =
      List.range
        (chunksOfPage jobEx (mkRecord ⟨urlA, 0⟩ "Hi there. Bye." [])).length ∧
    (⟨"Hi there. Bye.", urlA, 0, 0, 1, 3⟩ : Chunk).total_chunks =
      (chunksOfPage jobEx (mkRecord ⟨urlA, 0⟩ "Hi there. Bye." [])).length :=
  ⟨(chunk_indices_contiguous jobEx (mkRecord ⟨urlA, 0⟩ "Hi there. Bye." [])).1,
   (chunk_indices_contiguous jobEx (mkRecord ⟨urlA, 0⟩ "Hi there. Bye." [])).2
     _ (by decide)⟩

/-! ### Analyzer, empty pages, validation, URL normalization -/

/-- C7: entity and topic extraction are pure, deterministic functions of the
input text — two runs on identical text yield identical results — and the
ranked topic list is ordered by score with ties broken by first occurrence
order. -/
theorem analyze_deterministic (t : String) :
    analyzeText t = analyzeText t ∧
    List.Sorted topicRel (rankTopics t) ∧
    extractTopics t = ((rankTopics t).take topN).map ScoredTopic.term :=
  ⟨rfl, by unfold rankTopics; exact List.sorted_insertionSort _ _, rfl⟩

/-- C9: a successfully fetched page with zero extractable text is not an
error — it is recorded with status ok and word_count 0, chunking yields
zero chunks, and entity and topic extraction yield nothing. -/
theorem empty_page_handled (job : CrawlJob) (web : Web) (fuel : Nat)
    (p : PageRecord) (hp : p ∈ (crawl job web fuel).pages) (ht : p.text = "") :
    p.status = FetchStatus.ok ∧ p.word_count = 0 ∧
    chunksOfPage job p = [] ∧
    extractEntities p.text = EntityCollection.empty ∧
    extractTopics p.text = [] := by
  have hinv := (inv_crawl job web fuel).pages_ok p hp
  refine ⟨hinv.2.2.1, ?_, ?_, ?_, ?_⟩
  · rw [hinv.2.2.2.1, ht]
    rfl
  · unfold chunksOfPage
    rw [ht]
    rfl
  · rw [ht]
    rfl
  · rw [ht]
    rfl

/-- Witness for C9 at the empty page of the example crawl. -/
theorem empty_page_handled_witness :
    mkRecord ⟨urlP, 1⟩ "" [] ∈ (crawl jobEx webEx 10).pages ∧
    (mkRecord ⟨urlP, 1⟩ "" []).status = FetchStatus.ok ∧
    (mkRecord ⟨urlP, 1⟩ "" []).word_count = 0 :=
  ⟨by decide,
   (empty_page_handled jobEx webEx 10 _ (by decide) rfl).1,
   (empty_page_handled jobEx webEx 10 _ (by decide) rfl).2.1⟩

/-- C6: a job whose overlap is not smaller than its chunk size (or with a
non-positive page or chunk-size limit) is rejected as a ConfigError at
validation, before any crawling: the result is an error and is independent
of the website and of the fuel, so no page is fetched and no output is
produced. -/
theorem invalid_config_rejected (job : CrawlJob) (web : Web) (fuel : Nat)
    (h : job.maxChars ≤ job.overlapChars ∨ job.max_pages = 0 ∨
      job.maxChars = 0) :
    (∃ e, runJob job web fuel = Except.error e) ∧
    ∀ (web' : Web) (fuel' : Nat), runJob job web fuel = runJob job web' fuel' := by
  have hv : ∃ e, validateJob job = some e := by
    unfold validateJob
    split_ifs with h1 h2 h3
    · exact ⟨_, rfl⟩
    · exact ⟨_, rfl⟩
    · exact ⟨_, rfl⟩
    · rcases h with h | h | h <;> omega
  obtain ⟨e, he⟩ := hv
  constructor
  · exact ⟨e, by unfold runJob; rw [he]⟩
  · intro web' fuel'
    unfold runJob
    rw [he]

/-- Witness for C6 at a job whose overlap equals its chunk size. -/
theorem invalid_config_rejected_witness :
    (jobBad.maxChars ≤ jobBad.overlapChars ∨ jobBad.max_pages = 0 ∨
      jobBad.maxChars = 0) ∧
    ∃ e, runJob jobBad webEx 5 = Except.error e :=
  ⟨by decide, (invalid_config_rejected jobBad webEx 5 (by decide)).1⟩

/-- The regex `/^https?:\/\//i` accepts exactly the strings that start with
`http://` or `https://` case-insensitively. -/
lemma regexHttpSTest_eq (l : List Char) :
    regexHttpSTest l =
      (ciStartsWith httpChars l || ciStartsWith httpsChars l) := by
  rcases l with _ | ⟨c0, _ | ⟨c1, _ | ⟨c2, _ | ⟨c3, _ | ⟨c4, _ |
    ⟨c5, _ | ⟨c6, _ | ⟨c7, rest⟩⟩⟩⟩⟩⟩⟩⟩ <;>
    simp [regexHttpSTest, afterHttpTest, colonSS, ciStartsWith, httpChars,
      httpsChars, Bool.and_assoc, Bool.and_or_distrib_left]

/-- C10: for every entered website URL, the submitted root URL is the
trimmed input prefixed with `https://` exactly when the trimmed input does
not already start with `http://` or `https://` case-insensitively; inputs
already carrying such a scheme are submitted unchanged apart from
trimming. -/
theorem onboarding_url_normalization (input : String) :
    formattedUrlOf input = claimRootUrl input := by
  unfold formattedUrlOf claimRootUrl
  rw [regexHttpSTest_eq]
  by_cases h : ciStartsWith httpChars (jsTrim input).data = true ∨
      ciStartsWith httpsChars (jsTrim input).data = true
  · have hb : (ciStartsWith httpChars (jsTrim input).data ||
        ciStartsWith httpsChars (jsTrim input).data) = true := by
      rcases h with h | h <;> simp [h]
    rw [if_pos hb, if_pos h]
  · have hb : ¬((ciStartsWith httpChars (jsTrim input).data ||
        ciStartsWith httpsChars (jsTrim input).data) = true) := by
      simp only [Bool.or_eq_true]
      exact h
    rw [if_neg hb, if_neg h]

end Accorn
